import Mathlib

/-!
Shallow embedding of the MIPS64 linker backend (`elf/arch-mips64.cc`):
the `MipsGotSection` symbol/addend pools and their finalization, the GOT
address layout, GOT-entry and dynamic-relocation emission, the
per-relocation scan/apply dispatch, and the `.eh_frame` CIE rewriter.
-/

namespace Mips64

/-- The fields of `Symbol<E>` that this backend reads: the defining file's
link `priority`, the per-file symbol index `sym_idx`, the import and
relative flags, the resolved address (`get_addr`), and the dynamic-symbol
index (`get_dynsym_idx`). Distinct symbol objects in a link have distinct
`(priority, sym_idx)` pairs. -/
structure Symbol where
  priority : Nat
  sym_idx : Nat
  is_imported : Bool
  is_relative : Bool
  addr : Nat
  dynsym_idx : Nat
  deriving DecidableEq, Repr

/-- `MipsGotSection<E>::SymbolAddend`: a symbol reference plus an addend. -/
structure SymbolAddend where
  sym : Symbol
  addend : Int
  deriving DecidableEq, Repr

/-- `SymbolAddend::operator<`: lexicographic comparison of
`(sym->file->priority, sym->sym_idx, addend)` tuples. -/
def saLt (a b : SymbolAddend) : Prop :=
  a.sym.priority < b.sym.priority ∨
    (a.sym.priority = b.sym.priority ∧
      (a.sym.sym_idx < b.sym.sym_idx ∨
        (a.sym.sym_idx = b.sym.sym_idx ∧ a.addend < b.addend)))

instance : DecidableRel saLt := fun a b => by
  unfold saLt; infer_instance

/-- The structural sort/dedup key of a pool entry. -/
def saKey (a : SymbolAddend) : Nat × Nat × Int :=
  (a.sym.priority, a.sym.sym_idx, a.addend)

/-- The non-strict order induced by `SymbolAddend::operator<`, used to
state sortedness of the result of the stable sort. -/
def saLe (a b : SymbolAddend) : Prop :=
  saLt a b ∨ saKey a = saKey b

instance : DecidableRel saLe := fun a b => by
  unfold saLe; infer_instance

instance : IsTotal SymbolAddend saLe where
  total a b := by
    simp only [saLe, saLt, saKey, Prod.mk.injEq]
    omega

instance : IsTrans SymbolAddend saLe where
  trans a b c hab hbc := by
    simp only [saLe, saLt, saKey, Prod.mk.injEq] at hab hbc ⊢
    omega

instance : IsAntisymm SymbolAddend saLt where
  antisymm a b hab hba := by
    simp only [saLt] at hab hba
    omega

/-- Modelled from the spec: mold's `sort(vec)` helper (declared outside
this file) is a "stable sort by the structural key"; a stable sort with
respect to `operator<` is a sort by the non-strict relation `saLe`. -/
def poolSort (l : List SymbolAddend) : List SymbolAddend :=
  List.insertionSort saLe l

/-- Tail of the adjacent-duplicate removal: `prev` is the last kept
element; an element structurally equal to it is dropped. -/
def dedup_adj (prev : SymbolAddend) : List SymbolAddend → List SymbolAddend
  | [] => []
  | b :: rest => if prev = b then dedup_adj prev rest else b :: dedup_adj b rest

/-- Modelled from the spec: mold's `remove_duplicates(vec)` helper
(declared outside this file) "removes structurally-equal duplicates" from
a sorted vector, i.e. drops every element structurally equal to its
predecessor, as `std::unique` does. -/
def remove_duplicates : List SymbolAddend → List SymbolAddend
  | [] => []
  | a :: rest => a :: dedup_adj a rest

/-- The finalization step of `MipsGotSection::update_shdr` applied to one
pool: `sort(got_syms); remove_duplicates(got_syms);`. -/
def finalizePool (l : List SymbolAddend) : List SymbolAddend :=
  remove_duplicates (poolSort l)

/-- In a real link, pool entries referring to distinct symbol objects have
distinct `(file priority, sym_idx)` pairs, so the structural key
determines the entry. -/
def KeyInjective (l : List SymbolAddend) : Prop :=
  ∀ a ∈ l, ∀ b ∈ l, saKey a = saKey b → a = b

/-- `MipsGotSection<E>::NUM_RESERVED`, declared in the header outside this
file. Modelled from the spec: "The first two slots are reserved"; the GOT
partition starts with reserved slots `[0, R)` where `R = 2`. -/
def NUM_RESERVED : Nat := 2

/-- `sizeof(Word<E>)` for this 64-bit target: 8 bytes. -/
def wordSize : Nat := 8

/-- The state of `MipsGotSection<E>` read by the address queries: the
section address `shdr.sh_addr`, the dynamic symbol table size
`ctx.dynsym->symbols.size()`, and the two pools. -/
structure GotLayout where
  sh_addr : Nat
  dynsym_size : Nat
  got_syms : List SymbolAddend
  gotpage_syms : List SymbolAddend
  deriving Repr

/-- `std::lower_bound` over a pool: the index of the first element that is
not `operator<` the probe (the source calls it on the finalized, sorted
pools). -/
def lower_bound (l : List SymbolAddend) (x : SymbolAddend) : Nat :=
  match l with
  | [] => 0
  | a :: rest => if saLt a x then lower_bound rest x + 1 else 0

/-- `MipsGotSection::get_got_addr`: the slot of `{sym, addend}` in the
finalized ordinary pool, offset by the reserved and dynamic-symbol-mirror
slots. -/
def get_got_addr (g : GotLayout) (sym : Symbol) (addend : Int) : Nat :=
  g.sh_addr +
    (NUM_RESERVED + g.dynsym_size + lower_bound g.got_syms ⟨sym, addend⟩) * wordSize

/-- `MipsGotSection::get_gotpage_got_addr`: like `get_got_addr` but for
the page pool, which sits after the ordinary pool. -/
def get_gotpage_got_addr (g : GotLayout) (sym : Symbol) (addend : Int) : Nat :=
  g.sh_addr +
    (NUM_RESERVED + g.dynsym_size + g.got_syms.length +
      lower_bound g.gotpage_syms ⟨sym, addend⟩) * wordSize

/-- The `sh_size` value computed at the end of `MipsGotSection::update_shdr`. -/
def update_shdr_size (g : GotLayout) : Nat :=
  (NUM_RESERVED + g.dynsym_size + g.got_syms.length + g.gotpage_syms.length) *
    wordSize

/-- `MipsGotSection::update_shdr`: finalize both pools (sort, then remove
duplicates), then compute the section size from the finalized lengths. -/
def update_shdr (g : GotLayout) : GotLayout × Nat :=
  let g' : GotLayout :=
    { g with got_syms := finalizePool g.got_syms,
             gotpage_syms := finalizePool g.gotpage_syms }
  (g', update_shdr_size g')

/-- Reduce an `i64`/`u64` integer expression to its 64-bit unsigned value. -/
def u64I (x : Int) : Nat := (x % (2 ^ 64 : Int)).toNat

/-- Reinterpret a `u64` value as a signed `i64`, as happens when a `u64`
argument is passed to the `i64` parameter of the `check` lambda. -/
def toI64 (x : Nat) : Int :=
  if x % 2 ^ 64 < 2 ^ 63 then ((x % 2 ^ 64 : Nat) : Int)
  else ((x % 2 ^ 64 : Nat) : Int) - 2 ^ 64

/-- The dynamic-fixup kinds a `GotEntry` can carry: `R_NONE` (the default,
no dynamic relocation), `E::R_RELATIVE`, or `E::R_DYNAMIC`. -/
inductive RKind where
  | r_none
  | r_relative
  | r_dynamic
  deriving DecidableEq, Repr

/-- `MipsGotSection<E>::GotEntry`: slot value, fixup kind, optional symbol. -/
structure GotEntry where
  val : Nat
  r_type : RKind
  sym : Option Symbol
  deriving DecidableEq, Repr

/-- `SymbolAddend::get_addr`: `sym->get_addr(ctx, flags) + addend` in
64-bit arithmetic. -/
def sa_addr (sa : SymbolAddend) : Nat := u64I ((sa.sym.addr : Int) + sa.addend)

/-- `MipsGotSection::get_got_entries`: one entry per ordinary-pool element
(imported symbols get a symbol-bound dynamic fixup, relative symbols under
PIC get a base fixup), then one entry per page-pool element. -/
def get_got_entries (pic : Bool) (g : GotLayout) : List GotEntry :=
  g.got_syms.map (fun ent =>
    if ent.sym.is_imported then ⟨0, RKind.r_dynamic, some ent.sym⟩
    else if pic && ent.sym.is_relative then ⟨sa_addr ent, RKind.r_relative, none⟩
    else ⟨sa_addr ent, RKind.r_none, none⟩) ++
  g.gotpage_syms.map (fun ent =>
    if pic && ent.sym.is_relative then ⟨sa_addr ent, RKind.r_relative, none⟩
    else ⟨sa_addr ent, RKind.r_none, none⟩)

/-- `MipsGotSection::get_reldyn_size`: the number of GOT entries whose
fixup kind is not `R_NONE`. -/
def get_reldyn_size (pic : Bool) (g : GotLayout) : Nat :=
  (get_got_entries pic g).countP (fun e => decide (e.r_type ≠ RKind.r_none))

/-- One `ElfRel<E>` record as constructed by `copy_buf`. -/
structure DynRel where
  r_offset : Nat
  r_type : RKind
  r_sym : Nat
  r_addend : Nat
  deriving DecidableEq, Repr

/-- The dynamic-relocation record `copy_buf` emits for the GOT entry at
GOT index `i`: target address, fixup kind, dynamic-symbol index (0 when
the entry has no symbol), and value. -/
def dynrel_of (sh_addr i : Nat) (ent : GotEntry) : DynRel :=
  ⟨sh_addr + i * wordSize, ent.r_type,
    (match ent.sym with | some s => s.dynsym_idx | none => 0), ent.val⟩

/-- The stream of dynamic relocations written by `copy_buf`'s final loop,
walking the entries from GOT index `i` upward. -/
def copy_buf_dynrels (sh_addr : Nat) : Nat → List GotEntry → List DynRel
  | _, [] => []
  | i, ent :: rest =>
    if ent.r_type ≠ RKind.r_none then
      dynrel_of sh_addr i ent :: copy_buf_dynrels sh_addr (i + 1) rest
    else
      copy_buf_dynrels sh_addr (i + 1) rest

/-- The pool-slot values written by `copy_buf`'s final loop, in entry
order (`buf[i++] = ent.val`). -/
def copy_buf_pool_slots (es : List GotEntry) : List Nat := es.map (fun e => e.val)

/-- A sample defined symbol, for concrete evaluations. -/
def demoSymA : Symbol := ⟨1, 0, false, true, 0x1000, 0⟩

/-- A sample imported symbol, for concrete evaluations. -/
def demoSymB : Symbol := ⟨1, 1, true, false, 0x2000, 3⟩

/-- A sample pool in one arrival order, with a duplicate append. -/
def demoPool : List SymbolAddend := [⟨demoSymB, 0⟩, ⟨demoSymA, 4⟩, ⟨demoSymB, 0⟩]

/-- The same multiset of appends in another arrival order. -/
def demoPool' : List SymbolAddend := [⟨demoSymA, 4⟩, ⟨demoSymB, 0⟩, ⟨demoSymB, 0⟩]

/-- A sample `MipsGotSection` state with already-finalized pools. -/
def demoLayout : GotLayout :=
  { sh_addr := 0x10000, dynsym_size := 3,
    got_syms := [⟨demoSymA, 4⟩, ⟨demoSymB, 0⟩],
    gotpage_syms := [⟨demoSymA, 8⟩] }

-- Numeric MIPS relocation type codes. Modelled from the spec: the codes
-- are declared in mold's elf.h, outside this file; they are the standard
-- SysV MIPS psABI values, and a record's combined type packs up to three
-- of them as type | type2 << 8 | type3 << 16.

def R_NONE : Nat := 0

def R_MIPS_32 : Nat := 2

def R_MIPS_HI16 : Nat := 5

def R_MIPS_LO16 : Nat := 6

def R_MIPS_GPREL16 : Nat := 7

def R_MIPS_CALL16 : Nat := 11

def R_MIPS_GPREL32 : Nat := 12

def R_MIPS_64 : Nat := 18

def R_MIPS_GOT_DISP : Nat := 19

def R_MIPS_GOT_PAGE : Nat := 20

def R_MIPS_GOT_OFST : Nat := 21

def R_MIPS_GOT_HI16 : Nat := 22

def R_MIPS_GOT_LO16 : Nat := 23

def R_MIPS_SUB : Nat := 24

def R_MIPS_CALL_HI16 : Nat := 30

def R_MIPS_CALL_LO16 : Nat := 31

def R_MIPS_JALR : Nat := 37

def R_MIPS_TLS_GD : Nat := 42

def R_MIPS_TLS_LDM : Nat := 43

def R_MIPS_TLS_DTPREL_HI16 : Nat := 44

def R_MIPS_TLS_DTPREL_LO16 : Nat := 45

def R_MIPS_TLS_GOTTPREL : Nat := 46

def R_MIPS_TLS_TPREL_HI16 : Nat := 49

def R_MIPS_TLS_TPREL_LO16 : Nat := 50

/-- The combined type `R_MIPS_GPREL16 | (R_MIPS_SUB << 8) | (R_MIPS_HI16 << 16)`. -/
def R_GPREL16_SUB_HI16 : Nat :=
  R_MIPS_GPREL16 ||| (R_MIPS_SUB <<< 8) ||| (R_MIPS_HI16 <<< 16)

/-- The combined type `R_MIPS_GPREL16 | (R_MIPS_SUB << 8) | (R_MIPS_LO16 << 16)`. -/
def R_GPREL16_SUB_LO16 : Nat :=
  R_MIPS_GPREL16 ||| (R_MIPS_SUB <<< 8) ||| (R_MIPS_LO16 <<< 16)

/-- The combined type `R_MIPS_GPREL32 | (R_MIPS_64 << 8)`. -/
def R_GPREL32_64 : Nat := R_MIPS_GPREL32 ||| (R_MIPS_64 <<< 8)

/-- `BIAS = 0x8000`, the carry-compensating bias of the hi16/lo16 split. -/
def BIAS : Int := 0x8000

/-- The `check` lambda of `apply_reloc_alloc`: a (non-fatal) out-of-range
`Error` with the `recompile with -mxgot` remedy is reported exactly when
`val < lo || hi <= val`; the returned flag records whether it fired. -/
def check (val lo hi : Int) : Bool := decide (val < lo) || decide (hi ≤ val)

/-- The 16-bit field OR'd into the instruction word by `write_hi16`:
`((val + BIAS) >> 16) & 0xffff` in 64-bit unsigned arithmetic. -/
def hi16_field (v : Nat) : Nat := (((v + 0x8000) % 2 ^ 64) >>> 16) &&& 0xffff

/-- The diagnostic of `write_hi16`: `check(val, -(1LL << 31), 1LL << 31)`
on the `i64` view of the `u64` argument. -/
def hi16_err (v : Nat) : Bool := check (toI64 v) (-(2 ^ 31)) (2 ^ 31)

/-- The 16-bit field OR'd into the instruction word by `write_lo16` and
`write_lo16_nc`: `val & 0xffff`. -/
def lo16_field (v : Nat) : Nat := v &&& 0xffff

/-- The diagnostic of `write_lo16`: `check(val, -(1 << 15), 1 << 15)` on
the `i64` view of the `u64` argument (`write_lo16_nc` performs no check). -/
def lo16_err (v : Nat) : Bool := check (toI64 v) (-(2 ^ 15)) (2 ^ 15)

/-- What one `apply_reloc_alloc` loop iteration does at `loc`: skip,
delegate to `apply_toc_rel`, store a 64-bit word, or feed the given `u64`
value to one of the three 16-bit write helpers. `unreach` is the
`unreachable()` default branch. -/
inductive ApplyStep where
  | nop
  | toc
  | write64 (v : Nat)
  | hi16 (v : Nat)
  | lo16 (v : Nat)
  | lo16_nc (v : Nat)
  | unreach
  deriving DecidableEq, Repr

/-- The per-record inputs of the `apply_reloc_alloc` loop body: the
quantities the source names `S`, `A`, `P`, `G`, `GOT`, `GP`, `GP0`, the
TLS base addresses, the externally resolved TLS slot addresses of the
symbol, the symbol's locality, the symbol itself, and the finalized
`MipsGotSection` state. -/
structure RelCtx where
  S : Nat
  A : Int
  P : Nat
  G : Nat
  GOT : Nat
  GP : Nat
  GP0 : Nat
  tp_addr : Nat
  dtp_addr : Nat
  gottp_addr : Nat
  tlsgd_addr : Nat
  tlsld_addr : Nat
  is_local : Bool
  sym : Symbol
  got : GotLayout
  deriving Repr

/-- The value shared by the two GPREL16-SUB cases:
`sym.is_local(ctx) ? S + A + GP0 - GP : S + A - GP` in 64-bit arithmetic. -/
def gprel_val (c : RelCtx) : Nat :=
  if c.is_local then u64I ((c.S : Int) + c.A + c.GP0 - c.GP)
  else u64I ((c.S : Int) + c.A - c.GP)

/-- The dispatch of `InputSection::apply_reloc_alloc` for one relocation
record with combined type `r_type`. -/
def apply_reloc_alloc1 (c : RelCtx) (r_type : Nat) : ApplyStep :=
  if r_type = R_NONE then ApplyStep.nop
  else if r_type = R_MIPS_64 then ApplyStep.toc
  else if r_type = R_GPREL16_SUB_HI16 then
    ApplyStep.hi16 (u64I (-(gprel_val c : Int)))
  else if r_type = R_GPREL16_SUB_LO16 then
    ApplyStep.lo16_nc (u64I (-(gprel_val c : Int)))
  else if r_type = R_GPREL32_64 then
    ApplyStep.write64 (u64I ((c.S : Int) + c.A + c.GP0 - c.GP))
  else if r_type = R_MIPS_GOT_DISP then
    if c.A = 0 then ApplyStep.lo16 (u64I ((c.G : Int) + c.GOT - c.GP))
    else ApplyStep.lo16 (u64I ((get_got_addr c.got c.sym c.A : Int) - c.GP))
  else if r_type = R_MIPS_CALL_HI16 ∨ r_type = R_MIPS_GOT_HI16 then
    ApplyStep.hi16 (u64I ((c.G : Int) + c.GOT - c.GP))
  else if r_type = R_MIPS_CALL16 ∨ r_type = R_MIPS_CALL_LO16 ∨
      r_type = R_MIPS_GOT_LO16 then
    ApplyStep.lo16 (u64I ((c.G : Int) + c.GOT - c.GP))
  else if r_type = R_MIPS_GOT_PAGE then
    ApplyStep.lo16 (u64I ((get_gotpage_got_addr c.got c.sym c.A : Int) - c.GP))
  else if r_type = R_MIPS_GOT_OFST then ApplyStep.lo16 0
  else if r_type = R_MIPS_JALR then ApplyStep.nop
  else if r_type = R_MIPS_TLS_TPREL_HI16 then
    ApplyStep.hi16 (u64I ((c.S : Int) + c.A - c.tp_addr))
  else if r_type = R_MIPS_TLS_TPREL_LO16 then
    ApplyStep.lo16_nc (u64I ((c.S : Int) + c.A - c.tp_addr))
  else if r_type = R_MIPS_TLS_GOTTPREL then
    ApplyStep.lo16 (u64I ((c.gottp_addr : Int) - c.GP))
  else if r_type = R_MIPS_TLS_DTPREL_HI16 then
    ApplyStep.hi16 (u64I ((c.S : Int) + c.A - c.dtp_addr))
  else if r_type = R_MIPS_TLS_DTPREL_LO16 then
    ApplyStep.lo16_nc (u64I ((c.S : Int) + c.A - c.dtp_addr))
  else if r_type = R_MIPS_TLS_GD then
    ApplyStep.lo16 (u64I ((c.tlsgd_addr : Int) - c.GP))
  else if r_type = R_MIPS_TLS_LDM then
    ApplyStep.lo16 (u64I ((c.tlsld_addr : Int) - c.GP))
  else ApplyStep.unreach

/-- The effect of one `scan_relocations` loop iteration: skip, delegation,
a symbol flag, a pool append, a no-allocation case, or the
unknown-relocation diagnostic of the default branch. -/
inductive ScanStep where
  | skip
  | toc
  | needs_got
  | pool_got (sa : SymbolAddend)
  | pool_gotpage (sa : SymbolAddend)
  | needs_gottp
  | tlsle_check
  | needs_tlsgd
  | needs_tlsld
  | no_alloc
  | unknown
  deriving DecidableEq, Repr

/-- The dispatch of `InputSection::scan_relocations` for one relocation
record; `undef_err` is the result of `record_undef_error`. -/
def scan_relocations1 (sym : Symbol) (r_type : Nat) (r_addend : Int)
    (undef_err : Bool) : ScanStep :=
  if r_type = R_NONE ∨ undef_err = true then ScanStep.skip
  else if r_type = R_MIPS_64 then ScanStep.toc
  else if r_type = R_MIPS_GOT_DISP then
    if r_addend = 0 then ScanStep.needs_got else ScanStep.pool_got ⟨sym, r_addend⟩
  else if r_type = R_MIPS_CALL16 ∨ r_type = R_MIPS_CALL_HI16 ∨
      r_type = R_MIPS_CALL_LO16 ∨ r_type = R_MIPS_GOT_HI16 ∨
      r_type = R_MIPS_GOT_LO16 then ScanStep.needs_got
  else if r_type = R_MIPS_GOT_PAGE ∨ r_type = R_MIPS_GOT_OFST then
    ScanStep.pool_gotpage ⟨sym, r_addend⟩
  else if r_type = R_MIPS_TLS_GOTTPREL then ScanStep.needs_gottp
  else if r_type = R_MIPS_TLS_TPREL_HI16 ∨ r_type = R_MIPS_TLS_TPREL_LO16 then
    ScanStep.tlsle_check
  else if r_type = R_MIPS_TLS_GD then ScanStep.needs_tlsgd
  else if r_type = R_MIPS_TLS_LDM then ScanStep.needs_tlsld
  else if r_type = R_GPREL16_SUB_HI16 ∨ r_type = R_GPREL16_SUB_LO16 ∨
      r_type = R_GPREL32_64 ∨ r_type = R_MIPS_JALR ∨
      r_type = R_MIPS_TLS_DTPREL_HI16 ∨ r_type = R_MIPS_TLS_DTPREL_LO16 then
    ScanStep.no_alloc
  else ScanStep.unknown

/-- Reduce an integer expression to its 32-bit unsigned value, as a store
through a `U32<E> *` does. -/
def u32I (x : Int) : Nat := (x % (2 ^ 32 : Int)).toNat

/-- What one `apply_reloc_nonalloc` loop iteration does: skip, store a
64-bit or 32-bit word, or abort with a `Fatal` diagnostic. -/
inductive NonAllocStep where
  | skip
  | write64 (v : Nat)
  | write32 (v : Nat)
  | fatal
  deriving DecidableEq, Repr

/-- The dispatch of `InputSection::apply_reloc_nonalloc` for one record:
`undef_err` is `record_undef_error`, `tombstone` is
`get_tombstone(sym, frag)`, and `S`, `A` are the fragment-aware resolved
address and addend. -/
def apply_reloc_nonalloc1 (undef_err : Bool) (tombstone : Option Nat)
    (S : Nat) (A : Int) (r_type : Nat) : NonAllocStep :=
  if r_type = R_NONE ∨ undef_err = true then NonAllocStep.skip
  else if r_type = R_MIPS_64 then
    match tombstone with
    | some v => NonAllocStep.write64 v
    | none => NonAllocStep.write64 (u64I ((S : Int) + A))
  else if r_type = R_MIPS_32 then NonAllocStep.write32 (u32I ((S : Int) + A))
  else NonAllocStep.fatal

/-- The spec's synthetic split: `hi = (val + 0x8000) >> 16` as an
arithmetic shift of the signed value, i.e. floor division by `2^16`. -/
def spec_hi (val : Int) : Int := (val + BIAS).fdiv 65536

/-- The spec's synthetic split: `lo = val & 0xffff`, the low 16 bits of
the signed value. -/
def spec_lo (val : Int) : Int := val % 65536

/-- `sign_extend16`: reinterpret a 16-bit field as a signed value. -/
def sign_extend16 (x : Int) : Int := if x < 32768 then x else x - 65536

-- DWARF pointer-encoding constants. Modelled from the spec: they are
-- declared in mold's dwarf.h, outside this file; the values are the
-- standard DWARF exception-header encoding codes the spec's
-- UnwindRewriter section refers to.

def DW_EH_PE_absptr : Nat := 0x00

def DW_EH_PE_udata4 : Nat := 0x03

def DW_EH_PE_udata8 : Nat := 0x04

def DW_EH_PE_sdata4 : Nat := 0x0b

def DW_EH_PE_sdata8 : Nat := 0x0c

def DW_EH_PE_pcrel : Nat := 0x10

/-- Read the byte at offset `i` of a CIE buffer. -/
def buf_get (buf : List Nat) (i : Nat) : Nat := buf.getD i 0

/-- Store a byte at offset `i` of a CIE buffer. -/
def buf_set (buf : List Nat) (i v : Nat) : List Nat := buf.set i v

/-- The NUL-terminated string starting a byte list (`strlen` semantics). -/
def cstr : List Nat → List Nat
  | [] => []
  | b :: rest => if b = 0 then [] else b :: cstr rest

/-- The number of bytes `read_uleb` consumes from the front of a byte
list: every byte with the continuation bit plus the final byte. -/
def uleb_len : List Nat → Nat
  | [] => 0
  | b :: rest => if b < 0x80 then 1 else 1 + uleb_len rest

/-- Advance a cursor over one ULEB128-encoded value (`read_uleb(&p)`). -/
def skip_uleb (buf : List Nat) (p : Nat) : Nat := p + uleb_len (buf.drop p)

/-- The `rewrite` lambda of `mips_rewrite_cie`: reads the encoding byte at
`p`, determines the pointer size from its low nibble (`none` models the
`Fatal` "unknown pointer size" abort), and if the upper nibble declares an
absolute encoding replaces the byte by the equal-width PC-relative signed
encoding; returns the updated buffer and the size. -/
def cie_rewrite1 (buf : List Nat) (p : Nat) : Option (List Nat × Nat) :=
  let b := buf_get buf p
  let sz? : Option Nat :=
    if b &&& 0xf = DW_EH_PE_absptr then some wordSize
    else if b &&& 0xf = DW_EH_PE_udata4 ∨ b &&& 0xf = DW_EH_PE_sdata4 then some 4
    else if b &&& 0xf = DW_EH_PE_udata8 ∨ b &&& 0xf = DW_EH_PE_sdata8 then some 8
    else none
  match sz? with
  | none => none
  | some sz =>
    if b &&& 0x70 = DW_EH_PE_absptr then
      some (buf_set buf p
        (if sz = 4 then (b &&& 0x80) ||| DW_EH_PE_pcrel ||| DW_EH_PE_sdata4
         else (b &&& 0x80) ||| DW_EH_PE_pcrel ||| DW_EH_PE_sdata8), sz)
    else some (buf, sz)

/-- The augmentation-character loop of `mips_rewrite_cie`: walks the
augmentation characters with cursor `p` into the augmentation data.
Characters 'L' and 'R' rewrite one encoding byte and advance the cursor
by one; 'P' rewrites one encoding byte and additionally skips a pointer
of the returned size; 'S' and 'B' consume nothing; any other character is
a reported error, counted in `errs`, after which the walk continues with
the cursor unmoved. `none` models the `Fatal` abort from the lambda. -/
def cie_loop : List Nat → List Nat → Nat → Nat → Option (List Nat × Nat)
  | [], buf, _, errs => some (buf, errs)
  | c :: rest, buf, p, errs =>
    if c = Char.toNat 'L' ∨ c = Char.toNat 'R' then
      match cie_rewrite1 buf p with
      | none => none
      | some (buf2, _) => cie_loop rest buf2 (p + 1) errs
    else if c = Char.toNat 'P' then
      match cie_rewrite1 buf p with
      | none => none
      | some (buf2, sz) => cie_loop rest buf2 (p + sz + 1) errs
    else if c = Char.toNat 'S' ∨ c = Char.toNat 'B' then
      cie_loop rest buf p errs
    else
      cie_loop rest buf p (errs + 1)

/-- `mips_rewrite_cie` over a CIE's bytes: byte 9 (after Length, CIE ID
and Version) starts the augmentation string; without a leading 'z' the
CIE is returned untouched. Otherwise the cursor skips the augmentation
string's NUL, the two alignment factors, the return-address register and
the augmentation-data length, and the augmentation walk runs. The result
is the rewritten buffer and the count of reported errors, or `none` for
the `Fatal` abort. -/
def mips_rewrite_cie (buf : List Nat) : Option (List Nat × Nat) :=
  if buf_get buf 9 ≠ Char.toNat 'z' then some (buf, 0)
  else
    let aug := cstr (buf.drop 10)
    let p0 := 10 + aug.length + 1
    let p1 := skip_uleb buf p0
    let p2 := skip_uleb buf p1
    let p3 := p2 + 1
    let p4 := skip_uleb buf p3
    cie_loop aug buf p4 0

/-- A sample `RelCtx` for concrete evaluations. -/
def demoCtx : RelCtx :=
  { S := 0x20000, A := 4, P := 0x30000, G := 16, GOT := 0x10000,
    GP := 0x10000 + 0x7ff0, GP0 := 0, tp_addr := 0x40000, dtp_addr := 0x48000,
    gottp_addr := 0x10100, tlsgd_addr := 0x10110, tlsld_addr := 0x10120,
    is_local := false, sym := demoSymA, got := demoLayout }

theorem saLt_irrefl (a : SymbolAddend) : ¬ saLt a a := by
  simp only [saLt]; omega

theorem saLt_ne {a b : SymbolAddend} (h : saLt a b) : a ≠ b := by
  rintro rfl; exact saLt_irrefl a h

theorem saLt_of_saLe_of_key_ne {a b : SymbolAddend} (h : saLe a b)
    (hk : saKey a ≠ saKey b) : saLt a b := by
  rcases h with h | h
  · exact h
  · exact absurd h hk

theorem saLt_trans_saLe {a b c : SymbolAddend} (h1 : saLt a b) (h2 : saLe b c) :
    saLt a c := by
  simp only [saLt, saLe, saKey, Prod.mk.injEq] at h1 h2 ⊢
  omega

theorem mem_of_mem_dedup_adj {p : SymbolAddend} {l : List SymbolAddend}
    {x : SymbolAddend} (h : x ∈ dedup_adj p l) : x ∈ l := by
  induction l generalizing p with
  | nil => simp [dedup_adj] at h
  | cons b rest ih =>
    simp only [dedup_adj] at h
    split at h
    · exact List.mem_cons_of_mem b (ih h)
    · rcases List.mem_cons.mp h with rfl | h
      · exact List.mem_cons_self _ _
      · exact List.mem_cons_of_mem _ (ih h)

theorem mem_dedup_adj_of_mem {p : SymbolAddend} {l : List SymbolAddend}
    {x : SymbolAddend} (h : x ∈ l) : x = p ∨ x ∈ dedup_adj p l := by
  induction l generalizing p with
  | nil => simp at h
  | cons b rest ih =>
    simp only [dedup_adj]
    by_cases hpb : p = b
    · rw [if_pos hpb]
      rcases List.mem_cons.mp h with rfl | h
      · exact Or.inl hpb.symm
      · exact ih h
    · rw [if_neg hpb]
      rcases List.mem_cons.mp h with rfl | h
      · exact Or.inr (List.mem_cons_self _ _)
      · rcases ih (p := b) h with rfl | h'
        · exact Or.inr (List.mem_cons_self _ _)
        · exact Or.inr (List.mem_cons_of_mem _ h')

theorem mem_remove_duplicates {l : List SymbolAddend} {x : SymbolAddend} :
    x ∈ remove_duplicates l ↔ x ∈ l := by
  cases l with
  | nil => simp [remove_duplicates]
  | cons a rest =>
    simp only [remove_duplicates]
    constructor
    · intro h
      rcases List.mem_cons.mp h with rfl | h
      · exact List.mem_cons_self _ _
      · exact List.mem_cons_of_mem _ (mem_of_mem_dedup_adj h)
    · intro h
      rcases List.mem_cons.mp h with rfl | h
      · exact List.mem_cons_self _ _
      · rcases mem_dedup_adj_of_mem (p := a) h with rfl | h'
        · exact List.mem_cons_self _ _
        · exact List.mem_cons_of_mem _ h'

theorem pairwise_saLt_cons_dedup_adj {p : SymbolAddend} {l : List SymbolAddend}
    (hs : List.Pairwise saLe (p :: l)) (hinj : KeyInjective (p :: l)) :
    List.Pairwise saLt (p :: dedup_adj p l) := by
  induction l generalizing p with
  | nil => simp [dedup_adj]
  | cons b rest ih =>
    simp only [dedup_adj]
    split
    · rename_i heq
      subst heq
      apply ih
      · rcases List.pairwise_cons.mp hs with ⟨h1, h2⟩
        exact List.pairwise_cons.mpr ⟨fun x hx => h1 x (List.mem_cons_of_mem _ hx),
          (List.pairwise_cons.mp h2).2⟩
      · intro x hx y hy
        apply hinj
        · rcases List.mem_cons.mp hx with rfl | hx
          · exact List.mem_cons_self x _
          · exact List.mem_cons_of_mem _ (List.mem_cons_of_mem _ hx)
        · rcases List.mem_cons.mp hy with rfl | hy
          · exact List.mem_cons_self y _
          · exact List.mem_cons_of_mem _ (List.mem_cons_of_mem _ hy)
    · rename_i hne
      have hmem_pb : p ∈ p :: b :: rest := List.mem_cons_self _ _
      have hmem_b : b ∈ p :: b :: rest :=
        List.mem_cons_of_mem _ (List.mem_cons_self _ _)
      have hpb_le : saLe p b := (List.pairwise_cons.mp hs).1 b (List.mem_cons_self _ _)
      have hpb : saLt p b := by
        apply saLt_of_saLe_of_key_ne hpb_le
        intro hk
        exact hne (hinj p hmem_pb b hmem_b hk)
      have hrest : List.Pairwise saLt (b :: dedup_adj b rest) := by
        apply ih
        · exact (List.pairwise_cons.mp hs).2
        · intro x hx y hy
          exact hinj x (List.mem_cons_of_mem _ hx) y (List.mem_cons_of_mem _ hy)
      refine List.pairwise_cons.mpr ⟨?_, hrest⟩
      intro x hx
      rcases List.mem_cons.mp hx with rfl | hx
      · exact hpb
      · have hx' : x ∈ rest := mem_of_mem_dedup_adj hx
        have hbx : saLe b x :=
          (List.pairwise_cons.mp (List.pairwise_cons.mp hs).2).1 x hx'
        exact saLt_trans_saLe hpb hbx

theorem pairwise_saLt_remove_duplicates {l : List SymbolAddend}
    (hs : List.Pairwise saLe l) (hinj : KeyInjective l) :
    List.Pairwise saLt (remove_duplicates l) := by
  cases l with
  | nil => simp [remove_duplicates]
  | cons a rest =>
    simp only [remove_duplicates]
    exact pairwise_saLt_cons_dedup_adj hs hinj

theorem keyInjective_of_perm {l l' : List SymbolAddend}
    (h : l.Perm l') (hinj : KeyInjective l) : KeyInjective l' :=
  fun a ha b hb => hinj a (h.mem_iff.mpr ha) b (h.mem_iff.mpr hb)

theorem keyInjective_poolSort {l : List SymbolAddend} (hinj : KeyInjective l) :
    KeyInjective (poolSort l) :=
  keyInjective_of_perm (List.perm_insertionSort saLe l).symm hinj

theorem pairwise_saLt_finalizePool {l : List SymbolAddend}
    (hinj : KeyInjective l) : List.Pairwise saLt (finalizePool l) :=
  pairwise_saLt_remove_duplicates (List.sorted_insertionSort saLe l)
    (keyInjective_poolSort hinj)

theorem nodup_of_pairwise_saLt {l : List SymbolAddend}
    (h : List.Pairwise saLt l) : l.Nodup :=
  h.imp fun hab => saLt_ne hab

theorem mem_finalizePool {l : List SymbolAddend} {x : SymbolAddend} :
    x ∈ finalizePool l ↔ x ∈ l := by
  unfold finalizePool poolSort
  rw [mem_remove_duplicates, List.mem_insertionSort]

theorem finalizePool_eq_of_perm {l l' : List SymbolAddend}
    (h : l.Perm l') (hinj : KeyInjective l) :
    finalizePool l = finalizePool l' := by
  have hinj' : KeyInjective l' := keyInjective_of_perm h hinj
  have h1 := pairwise_saLt_finalizePool hinj
  have h2 := pairwise_saLt_finalizePool hinj'
  have hperm : (finalizePool l).Perm (finalizePool l') := by
    rw [List.perm_ext_iff_of_nodup (nodup_of_pairwise_saLt h1)
      (nodup_of_pairwise_saLt h2)]
    intro a
    rw [mem_finalizePool, mem_finalizePool, h.mem_iff]
  exact List.eq_of_perm_of_sorted hperm h1 h2

theorem lower_bound_get {l : List SymbolAddend} (hs : List.Pairwise saLt l) :
    ∀ (i : Nat) (hi : i < l.length), lower_bound l (l.get ⟨i, hi⟩) = i := by
  induction l with
  | nil => intro i hi; simp at hi
  | cons a rest ih =>
    intro i hi
    cases i with
    | zero =>
      simp only [List.get, lower_bound]
      rw [if_neg (saLt_irrefl a)]
    | succ n =>
      have hn : n < rest.length := by simpa using hi
      have hmem : rest.get ⟨n, hn⟩ ∈ rest := rest.get_mem _ _
      have ha : saLt a (rest.get ⟨n, hn⟩) := (List.pairwise_cons.mp hs).1 _ hmem
      simp only [List.get, lower_bound]
      rw [if_pos ha, ih (List.pairwise_cons.mp hs).2 n hn]

theorem copy_buf_dynrels_eq (sh_addr : Nat) :
    ∀ (es : List GotEntry) (i : Nat),
      copy_buf_dynrels sh_addr i es =
        ((es.enumFrom i).filter
          (fun p => decide (p.2.r_type ≠ RKind.r_none))).map
            (fun p => dynrel_of sh_addr p.1 p.2) := by
  intro es
  induction es with
  | nil => intro i; rfl
  | cons ent rest ih =>
    intro i
    by_cases h : ent.r_type = RKind.r_none
    · simp [copy_buf_dynrels, List.enumFrom, List.filter_cons, h, ih (i + 1)]
    · simp [copy_buf_dynrels, List.enumFrom, List.filter_cons, h, ih (i + 1)]

theorem copy_buf_dynrels_length (sh_addr : Nat) (es : List GotEntry) (i : Nat) :
    (copy_buf_dynrels sh_addr i es).length =
      es.countP (fun e => decide (e.r_type ≠ RKind.r_none)) := by
  induction es generalizing i with
  | nil => rfl
  | cons ent rest ih =>
    simp only [copy_buf_dynrels, List.countP_cons]
    by_cases h : ent.r_type = RKind.r_none
    · rw [if_neg (by simp [h])]
      simp [h, ih (i + 1)]
    · rw [if_pos h]
      simp [h, ih (i + 1)]

/-- C1: for every multiset of `(symbol, addend)` pairs appended to a pool
(with structurally distinct entries carrying distinct sort keys, as
distinct symbol objects do in a link), finalization — sort followed by
duplicate removal, as in `update_shdr` — yields a sequence strictly sorted
by `(file priority, symbol index, addend)` with no two structurally-equal
entries, and the result depends only on the multiset, not the append
order. -/
theorem pool_finalize_canonical (l l' : List SymbolAddend)
    (hperm : l.Perm l') (hinj : KeyInjective l) :
    List.Pairwise saLt (finalizePool l) ∧ (finalizePool l).Nodup ∧
      finalizePool l = finalizePool l' :=
  ⟨pairwise_saLt_finalizePool hinj,
   nodup_of_pairwise_saLt (pairwise_saLt_finalizePool hinj),
   finalizePool_eq_of_perm hperm hinj⟩

theorem pool_finalize_canonical_witness :
    List.Pairwise saLt (finalizePool demoPool) ∧ (finalizePool demoPool).Nodup ∧
      finalizePool demoPool = finalizePool demoPool' :=
  pool_finalize_canonical demoPool demoPool' (by decide)
    (by unfold KeyInjective; decide)

/-- C2: after `update_shdr` finalizes both pools, the GOT index space is
exactly partitioned: the section size is
`(R + D + |got_syms| + |gotpage_syms|) * word_size`; the ordinary-pool
entry at finalized position `i` resolves through `get_got_addr` to
`sh_addr + (R + D + i) * word_size`; and the page-pool entry at finalized
position `j` resolves through `get_gotpage_got_addr` to
`sh_addr + (R + D + |got_syms| + j) * word_size`. -/
theorem got_index_partition (g0 : GotLayout)
    (hinj1 : KeyInjective g0.got_syms) (hinj2 : KeyInjective g0.gotpage_syms) :
    (update_shdr g0).2 =
      (NUM_RESERVED + (update_shdr g0).1.dynsym_size +
        (update_shdr g0).1.got_syms.length +
        (update_shdr g0).1.gotpage_syms.length) * wordSize ∧
    (∀ (i : Nat) (hi : i < (update_shdr g0).1.got_syms.length),
      get_got_addr (update_shdr g0).1
          ((update_shdr g0).1.got_syms.get ⟨i, hi⟩).sym
          ((update_shdr g0).1.got_syms.get ⟨i, hi⟩).addend =
        (update_shdr g0).1.sh_addr +
          (NUM_RESERVED + (update_shdr g0).1.dynsym_size + i) * wordSize) ∧
    (∀ (j : Nat) (hj : j < (update_shdr g0).1.gotpage_syms.length),
      get_gotpage_got_addr (update_shdr g0).1
          ((update_shdr g0).1.gotpage_syms.get ⟨j, hj⟩).sym
          ((update_shdr g0).1.gotpage_syms.get ⟨j, hj⟩).addend =
        (update_shdr g0).1.sh_addr +
          (NUM_RESERVED + (update_shdr g0).1.dynsym_size +
            (update_shdr g0).1.got_syms.length + j) * wordSize) := by
  have hs1 : List.Pairwise saLt (update_shdr g0).1.got_syms :=
    pairwise_saLt_finalizePool hinj1
  have hs2 : List.Pairwise saLt (update_shdr g0).1.gotpage_syms :=
    pairwise_saLt_finalizePool hinj2
  refine ⟨rfl, ?_, ?_⟩
  · intro i hi
    unfold get_got_addr
    rw [lower_bound_get hs1 i hi]
  · intro j hj
    unfold get_gotpage_got_addr
    rw [lower_bound_get hs2 j hj]

theorem got_index_partition_witness :
    (update_shdr demoLayout).2 =
      (NUM_RESERVED + (update_shdr demoLayout).1.dynsym_size +
        (update_shdr demoLayout).1.got_syms.length +
        (update_shdr demoLayout).1.gotpage_syms.length) * wordSize ∧
    (∀ (i : Nat) (hi : i < (update_shdr demoLayout).1.got_syms.length),
      get_got_addr (update_shdr demoLayout).1
          ((update_shdr demoLayout).1.got_syms.get ⟨i, hi⟩).sym
          ((update_shdr demoLayout).1.got_syms.get ⟨i, hi⟩).addend =
        (update_shdr demoLayout).1.sh_addr +
          (NUM_RESERVED + (update_shdr demoLayout).1.dynsym_size + i) * wordSize) ∧
    (∀ (j : Nat) (hj : j < (update_shdr demoLayout).1.gotpage_syms.length),
      get_gotpage_got_addr (update_shdr demoLayout).1
          ((update_shdr demoLayout).1.gotpage_syms.get ⟨j, hj⟩).sym
          ((update_shdr demoLayout).1.gotpage_syms.get ⟨j, hj⟩).addend =
        (update_shdr demoLayout).1.sh_addr +
          (NUM_RESERVED + (update_shdr demoLayout).1.dynsym_size +
            (update_shdr demoLayout).1.got_syms.length + j) * wordSize) :=
  got_index_partition demoLayout (by unfold KeyInjective; decide)
    (by unfold KeyInjective; decide)

/-- C3: `copy_buf` emits exactly one dynamic-relocation record — target
address, fixup kind, dynamic-symbol index or 0, value — for every GOT
entry of `get_got_entries` whose fixup kind is not `R_NONE`, in finalized
pool order, and `get_reldyn_size` is exactly the number of such entries,
so the emitted records exactly fill the pre-reserved region. -/
theorem copy_buf_emits_reldyn (sh_addr : Nat) (pic : Bool) (g : GotLayout) :
    copy_buf_dynrels sh_addr (NUM_RESERVED + g.dynsym_size)
        (get_got_entries pic g) =
      (((get_got_entries pic g).enumFrom (NUM_RESERVED + g.dynsym_size)).filter
        (fun p => decide (p.2.r_type ≠ RKind.r_none))).map
          (fun p => dynrel_of sh_addr p.1 p.2) ∧
    (copy_buf_dynrels sh_addr (NUM_RESERVED + g.dynsym_size)
        (get_got_entries pic g)).length = get_reldyn_size pic g :=
  ⟨copy_buf_dynrels_eq sh_addr (get_got_entries pic g) _,
   copy_buf_dynrels_length sh_addr (get_got_entries pic g) _⟩

theorem R_GPREL16_SUB_HI16_val : R_GPREL16_SUB_HI16 = 0x51807 := by decide

theorem R_GPREL16_SUB_LO16_val : R_GPREL16_SUB_LO16 = 0x61807 := by decide

theorem R_GPREL32_64_val : R_GPREL32_64 = 0x120c := by decide

theorem and_ffff_eq_mod (x : Nat) : x &&& 0xffff = x % 65536 := by
  have h := Nat.and_pow_two_sub_one_eq_mod x 16
  norm_num at h
  exact h

theorem apply1_none (c : RelCtx) : apply_reloc_alloc1 c R_NONE = ApplyStep.nop := rfl

theorem apply1_mips64 (c : RelCtx) :
    apply_reloc_alloc1 c R_MIPS_64 = ApplyStep.toc := rfl

theorem apply1_gprel_sub_hi16 (c : RelCtx) :
    apply_reloc_alloc1 c R_GPREL16_SUB_HI16 =
      ApplyStep.hi16 (u64I (-(gprel_val c : Int))) := rfl

theorem apply1_gprel_sub_lo16 (c : RelCtx) :
    apply_reloc_alloc1 c R_GPREL16_SUB_LO16 =
      ApplyStep.lo16_nc (u64I (-(gprel_val c : Int))) := rfl

theorem apply1_gprel32_64 (c : RelCtx) :
    apply_reloc_alloc1 c R_GPREL32_64 =
      ApplyStep.write64 (u64I ((c.S : Int) + c.A + c.GP0 - c.GP)) := rfl

theorem apply1_got_disp (c : RelCtx) :
    apply_reloc_alloc1 c R_MIPS_GOT_DISP =
      (if c.A = 0 then ApplyStep.lo16 (u64I ((c.G : Int) + c.GOT - c.GP))
       else ApplyStep.lo16 (u64I ((get_got_addr c.got c.sym c.A : Int) - c.GP))) :=
  rfl

theorem apply1_call_hi16 (c : RelCtx) :
    apply_reloc_alloc1 c R_MIPS_CALL_HI16 =
      ApplyStep.hi16 (u64I ((c.G : Int) + c.GOT - c.GP)) := rfl

theorem apply1_got_hi16 (c : RelCtx) :
    apply_reloc_alloc1 c R_MIPS_GOT_HI16 =
      ApplyStep.hi16 (u64I ((c.G : Int) + c.GOT - c.GP)) := rfl

theorem apply1_call16 (c : RelCtx) :
    apply_reloc_alloc1 c R_MIPS_CALL16 =
      ApplyStep.lo16 (u64I ((c.G : Int) + c.GOT - c.GP)) := rfl

theorem apply1_call_lo16 (c : RelCtx) :
    apply_reloc_alloc1 c R_MIPS_CALL_LO16 =
      ApplyStep.lo16 (u64I ((c.G : Int) + c.GOT - c.GP)) := rfl

theorem apply1_got_lo16 (c : RelCtx) :
    apply_reloc_alloc1 c R_MIPS_GOT_LO16 =
      ApplyStep.lo16 (u64I ((c.G : Int) + c.GOT - c.GP)) := rfl

theorem apply1_got_page (c : RelCtx) :
    apply_reloc_alloc1 c R_MIPS_GOT_PAGE =
      ApplyStep.lo16 (u64I ((get_gotpage_got_addr c.got c.sym c.A : Int) - c.GP)) :=
  rfl

theorem apply1_got_ofst (c : RelCtx) :
    apply_reloc_alloc1 c R_MIPS_GOT_OFST = ApplyStep.lo16 0 := rfl

theorem apply1_jalr (c : RelCtx) :
    apply_reloc_alloc1 c R_MIPS_JALR = ApplyStep.nop := rfl

theorem apply1_tprel_hi16 (c : RelCtx) :
    apply_reloc_alloc1 c R_MIPS_TLS_TPREL_HI16 =
      ApplyStep.hi16 (u64I ((c.S : Int) + c.A - c.tp_addr)) := rfl

theorem apply1_tprel_lo16 (c : RelCtx) :
    apply_reloc_alloc1 c R_MIPS_TLS_TPREL_LO16 =
      ApplyStep.lo16_nc (u64I ((c.S : Int) + c.A - c.tp_addr)) := rfl

theorem apply1_gottprel (c : RelCtx) :
    apply_reloc_alloc1 c R_MIPS_TLS_GOTTPREL =
      ApplyStep.lo16 (u64I ((c.gottp_addr : Int) - c.GP)) := rfl

theorem apply1_dtprel_hi16 (c : RelCtx) :
    apply_reloc_alloc1 c R_MIPS_TLS_DTPREL_HI16 =
      ApplyStep.hi16 (u64I ((c.S : Int) + c.A - c.dtp_addr)) := rfl

theorem apply1_dtprel_lo16 (c : RelCtx) :
    apply_reloc_alloc1 c R_MIPS_TLS_DTPREL_LO16 =
      ApplyStep.lo16_nc (u64I ((c.S : Int) + c.A - c.dtp_addr)) := rfl

theorem apply1_tls_gd (c : RelCtx) :
    apply_reloc_alloc1 c R_MIPS_TLS_GD =
      ApplyStep.lo16 (u64I ((c.tlsgd_addr : Int) - c.GP)) := rfl

theorem apply1_tls_ldm (c : RelCtx) :
    apply_reloc_alloc1 c R_MIPS_TLS_LDM =
      ApplyStep.lo16 (u64I ((c.tlsld_addr : Int) - c.GP)) := rfl

theorem scan1_got_disp (s : Symbol) (a : Int) :
    scan_relocations1 s R_MIPS_GOT_DISP a false =
      (if a = 0 then ScanStep.needs_got else ScanStep.pool_got ⟨s, a⟩) := rfl

theorem scan1_known (s : Symbol) (t : Nat) (a : Int)
    (h : scan_relocations1 s t a false ≠ ScanStep.unknown) :
    t = R_NONE ∨ t = R_MIPS_64 ∨ t = R_MIPS_GOT_DISP ∨ t = R_MIPS_CALL16 ∨
    t = R_MIPS_CALL_HI16 ∨ t = R_MIPS_CALL_LO16 ∨ t = R_MIPS_GOT_HI16 ∨
    t = R_MIPS_GOT_LO16 ∨ t = R_MIPS_GOT_PAGE ∨ t = R_MIPS_GOT_OFST ∨
    t = R_MIPS_TLS_GOTTPREL ∨ t = R_MIPS_TLS_TPREL_HI16 ∨
    t = R_MIPS_TLS_TPREL_LO16 ∨ t = R_MIPS_TLS_GD ∨ t = R_MIPS_TLS_LDM ∨
    t = R_GPREL16_SUB_HI16 ∨ t = R_GPREL16_SUB_LO16 ∨ t = R_GPREL32_64 ∨
    t = R_MIPS_JALR ∨ t = R_MIPS_TLS_DTPREL_HI16 ∨
    t = R_MIPS_TLS_DTPREL_LO16 := by
  by_contra hc
  push_neg at hc
  obtain ⟨h1, h2, h3, h4, h5, h6, h7, h8, h9, h10, h11, h12, h13, h14, h15,
    h16, h17, h18, h19, h20, h21⟩ := hc
  exact h (by simp [scan_relocations1, h1, h2, h3, h4, h5, h6, h7, h8, h9,
    h10, h11, h12, h13, h14, h15, h16, h17, h18, h19, h20, h21])

/-- C4: for every 32-bit signed value `val`, the spec's synthetic split
`hi = (val + 0x8000) >> 16`, `lo = val & 0xffff` reconstructs through
`(hi << 16) + sign_extend16(lo)` to exactly `val`; moreover the 16-bit
fields emitted by the `write_hi16` and `write_lo16` helpers for `val` are
precisely the low 16 bits of that `hi` and that `lo`. -/
theorem hi_lo_split_exact (val : Int) (h1 : -(2 ^ 31) ≤ val) (h2 : val < 2 ^ 31) :
    spec_hi val * 65536 + sign_extend16 (spec_lo val) = val ∧
    hi16_field (u64I val) = (spec_hi val % 65536).toNat ∧
    lo16_field (u64I val) = (spec_lo val).toNat := by
  have hfd : spec_hi val = (val + 0x8000) / 65536 := by
    unfold spec_hi BIAS
    exact Int.fdiv_eq_ediv _ (by norm_num)
  refine ⟨?_, ?_, ?_⟩
  · rw [hfd]
    unfold spec_lo sign_extend16
    split <;> omega
  · unfold hi16_field u64I
    rw [Nat.shiftRight_eq_div_pow, and_ffff_eq_mod, hfd]
    omega
  · unfold lo16_field u64I spec_lo
    rw [and_ffff_eq_mod]
    omega

theorem hi_lo_split_exact_witness :
    (spec_hi 0 * 65536 + sign_extend16 (spec_lo 0) = 0 ∧
      hi16_field (u64I 0) = (spec_hi 0 % 65536).toNat ∧
      lo16_field (u64I 0) = (spec_lo 0).toNat) ∧
    (spec_hi 0x7fff * 65536 + sign_extend16 (spec_lo 0x7fff) = 0x7fff ∧
      hi16_field (u64I 0x7fff) = (spec_hi 0x7fff % 65536).toNat ∧
      lo16_field (u64I 0x7fff) = (spec_lo 0x7fff).toNat) ∧
    (spec_hi 0x8000 * 65536 + sign_extend16 (spec_lo 0x8000) = 0x8000 ∧
      hi16_field (u64I 0x8000) = (spec_hi 0x8000 % 65536).toNat ∧
      lo16_field (u64I 0x8000) = (spec_lo 0x8000).toNat) ∧
    (spec_hi (-1) * 65536 + sign_extend16 (spec_lo (-1)) = -1 ∧
      hi16_field (u64I (-1)) = (spec_hi (-1) % 65536).toNat ∧
      lo16_field (u64I (-1)) = (spec_lo (-1)).toNat) ∧
    (spec_hi (-0x8000) * 65536 + sign_extend16 (spec_lo (-0x8000)) = -0x8000 ∧
      hi16_field (u64I (-0x8000)) = (spec_hi (-0x8000) % 65536).toNat ∧
      lo16_field (u64I (-0x8000)) = (spec_lo (-0x8000)).toNat) ∧
    (spec_hi 0x7fffffff * 65536 + sign_extend16 (spec_lo 0x7fffffff) = 0x7fffffff ∧
      hi16_field (u64I 0x7fffffff) = (spec_hi 0x7fffffff % 65536).toNat ∧
      lo16_field (u64I 0x7fffffff) = (spec_lo 0x7fffffff).toNat) ∧
    (spec_hi (-0x80000000) * 65536 + sign_extend16 (spec_lo (-0x80000000)) =
        -0x80000000 ∧
      hi16_field (u64I (-0x80000000)) = (spec_hi (-0x80000000) % 65536).toNat ∧
      lo16_field (u64I (-0x80000000)) = (spec_lo (-0x80000000)).toNat) :=
  ⟨hi_lo_split_exact 0 (by norm_num) (by norm_num),
   hi_lo_split_exact 0x7fff (by norm_num) (by norm_num),
   hi_lo_split_exact 0x8000 (by norm_num) (by norm_num),
   hi_lo_split_exact (-1) (by norm_num) (by norm_num),
   hi_lo_split_exact (-0x8000) (by norm_num) (by norm_num),
   hi_lo_split_exact 0x7fffffff (by norm_num) (by norm_num),
   hi_lo_split_exact (-0x80000000) (by norm_num) (by norm_num)⟩

/-- C5: each of the eight range-checked 16-bit GOT/Call/TLS relocations
routes its computed value through `write_lo16`, whose diagnostic fires
exactly when the `i64` view of the value lies outside `[-32768, 32768)`,
and whose written field is always the value's low 16 bits — so an
out-of-range value is never written without the diagnostic. -/
theorem lo16_range_check (c : RelCtx) (t : Nat)
    (ht : t = R_MIPS_CALL16 ∨ t = R_MIPS_CALL_LO16 ∨ t = R_MIPS_GOT_LO16 ∨
      t = R_MIPS_GOT_DISP ∨ t = R_MIPS_GOT_PAGE ∨ t = R_MIPS_TLS_GOTTPREL ∨
      t = R_MIPS_TLS_GD ∨ t = R_MIPS_TLS_LDM) :
    ∃ v : Nat, apply_reloc_alloc1 c t = ApplyStep.lo16 v ∧
      (lo16_err v = true ↔ (toI64 v < -32768 ∨ 32768 ≤ toI64 v)) ∧
      lo16_field v = v % 65536 := by
  have herr : ∀ v : Nat,
      (lo16_err v = true ↔ (toI64 v < -32768 ∨ 32768 ≤ toI64 v)) ∧
        lo16_field v = v % 65536 := by
    intro v
    refine ⟨?_, and_ffff_eq_mod v⟩
    unfold lo16_err check
    simp only [Bool.or_eq_true, decide_eq_true_eq]
    norm_num
  rcases ht with rfl | rfl | rfl | rfl | rfl | rfl | rfl | rfl
  · exact ⟨_, apply1_call16 c, (herr _).1, (herr _).2⟩
  · exact ⟨_, apply1_call_lo16 c, (herr _).1, (herr _).2⟩
  · exact ⟨_, apply1_got_lo16 c, (herr _).1, (herr _).2⟩
  · by_cases hA : c.A = 0
    · refine ⟨u64I ((c.G : Int) + c.GOT - c.GP), ?_, (herr _).1, (herr _).2⟩
      rw [apply1_got_disp, if_pos hA]
    · refine ⟨u64I ((get_got_addr c.got c.sym c.A : Int) - c.GP), ?_,
        (herr _).1, (herr _).2⟩
      rw [apply1_got_disp, if_neg hA]
  · exact ⟨_, apply1_got_page c, (herr _).1, (herr _).2⟩
  · exact ⟨_, apply1_gottprel c, (herr _).1, (herr _).2⟩
  · exact ⟨_, apply1_tls_gd c, (herr _).1, (herr _).2⟩
  · exact ⟨_, apply1_tls_ldm c, (herr _).1, (herr _).2⟩

theorem lo16_range_check_witness :
    ∃ v : Nat, apply_reloc_alloc1 demoCtx R_MIPS_CALL16 = ApplyStep.lo16 v ∧
      (lo16_err v = true ↔ (toI64 v < -32768 ∨ 32768 ≤ toI64 v)) ∧
      lo16_field v = v % 65536 :=
  lo16_range_check demoCtx R_MIPS_CALL16 (Or.inl rfl)

/-- C6: for an `R_MIPS_GOT_DISP` relocation, scanning sets only the
`NEEDS_GOT` flag when the addend is zero and appends `{symbol, addend}` to
the ordinary pool otherwise, and applying feeds `write_lo16` with
`G + GOT - GP` when the addend is zero and with the pool entry's resolved
GOT slot address minus `GP` otherwise. -/
theorem got_disp_scan_apply (s : Symbol) (a : Int) (c : RelCtx) :
    scan_relocations1 s R_MIPS_GOT_DISP a false =
      (if a = 0 then ScanStep.needs_got else ScanStep.pool_got ⟨s, a⟩) ∧
    apply_reloc_alloc1 c R_MIPS_GOT_DISP =
      (if c.A = 0 then ApplyStep.lo16 (u64I ((c.G : Int) + c.GOT - c.GP))
       else ApplyStep.lo16 (u64I ((get_got_addr c.got c.sym c.A : Int) - c.GP))) :=
  ⟨scan1_got_disp s a, apply1_got_disp c⟩

/-- C7: in `apply_reloc_nonalloc`, once `R_NONE` and undefined-symbol
records are skipped, `R_MIPS_64` stores the tombstone when one is supplied
and `S + A` otherwise, `R_MIPS_32` stores `S + A` truncated to 32 bits,
and every other relocation type is an immediate `Fatal` error. -/
theorem nonalloc_dispatch (tomb : Option Nat) (S : Nat) (A : Int) (t : Nat)
    (ht0 : t ≠ R_NONE) (ht64 : t ≠ R_MIPS_64) (ht32 : t ≠ R_MIPS_32) :
    apply_reloc_nonalloc1 false tomb S A t = NonAllocStep.fatal ∧
    apply_reloc_nonalloc1 false tomb S A R_MIPS_64 =
      (match tomb with
       | some v => NonAllocStep.write64 v
       | none => NonAllocStep.write64 (u64I ((S : Int) + A))) ∧
    apply_reloc_nonalloc1 false tomb S A R_MIPS_32 =
      NonAllocStep.write32 (u32I ((S : Int) + A)) ∧
    apply_reloc_nonalloc1 false tomb S A R_NONE = NonAllocStep.skip ∧
    apply_reloc_nonalloc1 true tomb S A t = NonAllocStep.skip := by
  refine ⟨?_, rfl, rfl, rfl, ?_⟩
  · simp [apply_reloc_nonalloc1, ht0, ht64, ht32]
  · simp [apply_reloc_nonalloc1]

theorem nonalloc_dispatch_witness :
    apply_reloc_nonalloc1 false (some 57005) 4096 8 R_MIPS_GOT_DISP =
        NonAllocStep.fatal ∧
    apply_reloc_nonalloc1 false (some 57005) 4096 8 R_MIPS_64 =
      (match some 57005 with
       | some v => NonAllocStep.write64 v
       | none => NonAllocStep.write64 (u64I ((4096 : Int) + 8))) ∧
    apply_reloc_nonalloc1 false (some 57005) 4096 8 R_MIPS_32 =
      NonAllocStep.write32 (u32I ((4096 : Int) + 8)) ∧
    apply_reloc_nonalloc1 false (some 57005) 4096 8 R_NONE =
        NonAllocStep.skip ∧
    apply_reloc_nonalloc1 true (some 57005) 4096 8 R_MIPS_GOT_DISP =
        NonAllocStep.skip :=
  nonalloc_dispatch (some 57005) 4096 8 R_MIPS_GOT_DISP (by decide) (by decide)
    (by decide)

/-- C9: every combined relocation type that `scan_relocations` accepts
without its unknown-relocation diagnostic has a matching case in
`apply_reloc_alloc`'s dispatch, so the `unreachable()` default branch is
never executed on a record that passed scanning. -/
theorem scan_accepts_imp_apply_handled (s : Symbol) (t : Nat) (a : Int)
    (c : RelCtx) (h : scan_relocations1 s t a false ≠ ScanStep.unknown) :
    apply_reloc_alloc1 c t ≠ ApplyStep.unreach := by
  rcases scan1_known s t a h with rfl | rfl | rfl | rfl | rfl | rfl | rfl |
    rfl | rfl | rfl | rfl | rfl | rfl | rfl | rfl | rfl | rfl | rfl | rfl |
    rfl | rfl
  · simp [apply1_none]
  · simp [apply1_mips64]
  · rw [apply1_got_disp]
    split <;> simp
  · simp [apply1_call16]
  · simp [apply1_call_hi16]
  · simp [apply1_call_lo16]
  · simp [apply1_got_hi16]
  · simp [apply1_got_lo16]
  · simp [apply1_got_page]
  · simp [apply1_got_ofst]
  · simp [apply1_gottprel]
  · simp [apply1_tprel_hi16]
  · simp [apply1_tprel_lo16]
  · simp [apply1_tls_gd]
  · simp [apply1_tls_ldm]
  · simp [apply1_gprel_sub_hi16]
  · simp [apply1_gprel_sub_lo16]
  · simp [apply1_gprel32_64]
  · simp [apply1_jalr]
  · simp [apply1_dtprel_hi16]
  · simp [apply1_dtprel_lo16]

theorem scan_accepts_imp_apply_handled_witness :
    apply_reloc_alloc1 demoCtx R_MIPS_CALL16 ≠ ApplyStep.unreach :=
  scan_accepts_imp_apply_handled demoSymA R_MIPS_CALL16 0 demoCtx (by decide)

/-- C8: a CIE whose augmentation string does not begin with the 'z'
marker — including the empty augmentation string — is returned by
`mips_rewrite_cie` with every byte unchanged and no diagnostics. -/
theorem rewrite_cie_no_z_untouched (buf : List Nat)
    (h : buf_get buf 9 ≠ Char.toNat 'z') :
    mips_rewrite_cie buf = some (buf, 0) := by
  unfold mips_rewrite_cie
  rw [if_pos h]

theorem rewrite_cie_no_z_untouched_witness :
    mips_rewrite_cie (List.replicate 10 0) = some (List.replicate 10 0, 0) :=
  rewrite_cie_no_z_untouched (List.replicate 10 0) (by decide)

/-- C10: an encoding byte whose size nibble is none of absptr, udata4,
sdata4, udata8 or sdata8 makes the rewrite lambda abort fatally, which
aborts the whole augmentation walk when reached through 'L', 'R' or 'P';
an unrecognized augmentation character is only a reported error: the walk
continues with the error count bumped and the buffer and data cursor
unchanged. -/
theorem cie_fatal_vs_reported (buf : List Nat) (p : Nat)
    (hbad : ¬ (buf_get buf p &&& 0xf = DW_EH_PE_absptr ∨
      buf_get buf p &&& 0xf = DW_EH_PE_udata4 ∨
      buf_get buf p &&& 0xf = DW_EH_PE_sdata4 ∨
      buf_get buf p &&& 0xf = DW_EH_PE_udata8 ∨
      buf_get buf p &&& 0xf = DW_EH_PE_sdata8))
    (ch : Nat) (hch : ch ≠ Char.toNat 'L' ∧ ch ≠ Char.toNat 'R' ∧
      ch ≠ Char.toNat 'P' ∧ ch ≠ Char.toNat 'S' ∧ ch ≠ Char.toNat 'B')
    (rest : List Nat) (errs : Nat) :
    cie_rewrite1 buf p = none ∧
    (∀ rest2, cie_loop (Char.toNat 'L' :: rest2) buf p errs = none) ∧
    (∀ rest2, cie_loop (Char.toNat 'R' :: rest2) buf p errs = none) ∧
    (∀ rest2, cie_loop (Char.toNat 'P' :: rest2) buf p errs = none) ∧
    cie_loop (ch :: rest) buf p errs = cie_loop rest buf p (errs + 1) := by
  push_neg at hbad
  obtain ⟨hb1, hb2, hb3, hb4, hb5⟩ := hbad
  have hr : cie_rewrite1 buf p = none := by
    unfold cie_rewrite1
    simp [hb1, hb2, hb3, hb4, hb5]
  refine ⟨hr, ?_, ?_, ?_, ?_⟩
  · intro rest2
    unfold cie_loop
    rw [if_pos (Or.inl rfl), hr]
  · intro rest2
    unfold cie_loop
    rw [if_pos (Or.inr rfl), hr]
  · intro rest2
    unfold cie_loop
    rw [if_neg (by decide), if_pos rfl, hr]
  · conv_lhs => unfold cie_loop
    rw [if_neg (fun hor => hor.elim hch.1 hch.2.1), if_neg hch.2.2.1,
      if_neg (fun hor => hor.elim hch.2.2.2.1 hch.2.2.2.2)]

theorem cie_fatal_vs_reported_witness :
    cie_rewrite1 [0x01] 0 = none ∧
    (∀ rest2, cie_loop (Char.toNat 'L' :: rest2) [0x01] 0 0 = none) ∧
    (∀ rest2, cie_loop (Char.toNat 'R' :: rest2) [0x01] 0 0 = none) ∧
    (∀ rest2, cie_loop (Char.toNat 'P' :: rest2) [0x01] 0 0 = none) ∧
    cie_loop (88 :: [Char.toNat 'S']) [0x01] 0 0 =
      cie_loop [Char.toNat 'S'] [0x01] 0 (0 + 1) :=
  cie_fatal_vs_reported [0x01] 0 (by decide) 88 (by decide) [Char.toNat 'S'] 0

end Mips64
